import Mathlib

/-!
Verification of the go-git differencing core: the pluggable hash-algorithm
registry (embedded from src/plumbing/hash/hash.go) and the merkle tree-diff
engine with its change/action model (the engine code itself is not part of
this slice of the repository, only its test file is, so it is modelled from
the specification).
-/

set_option maxHeartbeats 1000000

/-! ## Hash registry (embedded from src/plumbing/hash/hash.go)

Go's `crypto.Hash` is an unsigned integer enumeration; `crypto.SHA1 = 3` and
`crypto.SHA256 = 5`.  A hash constructor `func() hash.Hash` is opaque to this
development, so the registry is polymorphic in the constructor type `α`. -/

abbrev CryptoHash := Nat

def cryptoSHA1 : CryptoHash := 3

def cryptoSHA256 : CryptoHash := 5

/-- Errors of the registry layer.  `invalidArgument` is the Go error
"cannot register hash: f is nil"; `unsupportedHashFunction` is
`ErrUnsupportedHashFunction`; `invalidObjectFormat` is
`format.ErrInvalidObjectFormat` from the config package. -/
inductive HashErr where
  | invalidArgument
  | unsupportedHashFunction
  | invalidObjectFormat
deriving DecidableEq, Repr

/-- The `algos` map of hash.go: a finite map from `crypto.Hash` to a
hash constructor, represented as an association list. -/
abbrev Algos (α : Type) := List (CryptoHash × α)

def lookupAlgo {α : Type} (m : Algos α) (h : CryptoHash) : Option α :=
  (m.find? (fun p => p.1 = h)).map (fun p => p.2)

def setAlgo {α : Type} (m : Algos α) (h : CryptoHash) (f : α) : Algos α :=
  (h, f) :: m.filter (fun p => ¬ p.1 = h)

/-- `reset` of hash.go: restores the default registrations, `sha1cd.New`
for SHA-1 and `crypto.SHA256.New` for SHA-256 (the two constructors are the
parameters, being opaque Go functions). -/
def reset {α : Type} (sha1cdNew sha256New : α) : Algos α :=
  (setAlgo (setAlgo [] cryptoSHA1 sha1cdNew) cryptoSHA256 sha256New)

/-- `RegisterHash` of hash.go: rejects a nil constructor, then switches on
the hash: SHA1 and SHA256 install the constructor, any other value returns
`ErrUnsupportedHashFunction`. -/
def RegisterHash {α : Type} (algos : Algos α) (h : CryptoHash) (f : Option α) :
    Except HashErr (Algos α) :=
  match f with
  | none => Except.error HashErr.invalidArgument
  | some f =>
    if h = cryptoSHA1 then Except.ok (setAlgo algos h f)
    else if h = cryptoSHA256 then Except.ok (setAlgo algos h f)
    else Except.error HashErr.unsupportedHashFunction

/-- `New` of hash.go: looks the hash function up in the registry and panics
when it is not registered.  The panic is modelled as `none`; a `some`
result is the fresh instance built by the registered constructor. -/
def New {α : Type} (algos : Algos α) (h : CryptoHash) : Option α :=
  lookupAlgo algos h

/-- The object-format tokens of the config package: `ObjectFormat` is a
string type with constants `SHA1 = "sha1"` and `SHA256 = "sha256"`. -/
abbrev ObjectFormat := String

def formatSHA1 : ObjectFormat := "sha1"

def formatSHA256 : ObjectFormat := "sha256"

/-- `FromObjectFormat` of hash.go: maps the recognised format tokens to a
fresh digester via `New`, and returns `ErrInvalidObjectFormat` otherwise.
The outer `Option` propagates the (unreachable with the default registry)
panic of `New`. -/
def FromObjectFormat {α : Type} (algos : Algos α) (f : ObjectFormat) :
    Option (Except HashErr α) :=
  if f = formatSHA1 then (New algos cryptoSHA1).map Except.ok
  else if f = formatSHA256 then (New algos cryptoSHA256).map Except.ok
  else some (Except.error HashErr.invalidObjectFormat)

/-! ## Mode classes and noders

Modelled from the spec: the filemode package and the `treeNoder` adapter are
not part of this source slice (only their test, TestIssue279, is), so the
mode classes and the noder contract are rendered from §3 of the spec. -/

namespace merkletrie

/-- Modelled from the spec: the mode classes of §3 — regular file,
executable, symlink, directory, submodule-like link, and the deprecated
legacy alias of regular file. -/
inductive Mode where
  | regular
  | executable
  | symlink
  | dir
  | submodule
  | deprecated
deriving DecidableEq, Repr

/-- Modelled from the spec: the mode-equivalence policy of §4.2 — the
deprecated alias collapses onto the regular-file class, every other class is
its own singleton class. -/
def Mode.normalize : Mode → Mode
  | Mode.deprecated => Mode.regular
  | m => m

/-- Content digests: fixed-length byte strings compared byte-wise, here an
abstract number. -/
abbrev Digest := Nat

/-- Modelled from the spec: the noder contract of §3 as a closed variant
(§9): a non-container entry with name, mode class and content digest, or a
container with name, content digest and ordered children. -/
inductive Noder where
  | file (name : String) (mode : Mode) (digest : Digest)
  | tree (name : String) (digest : Digest) (children : List Noder)

def Noder.name : Noder → String
  | Noder.file n _ _ => n
  | Noder.tree n _ _ => n

def Noder.isContainer : Noder → Bool
  | Noder.file _ _ _ => false
  | Noder.tree _ _ _ => true

/-- Modelled from the spec: the identity digest of §3 — derived from the
content digest and the mode-equivalence class only, never from the raw mode
value, so that the deprecated alias and the regular class share one
identity. -/
def Noder.identity : Noder → Digest × Mode
  | Noder.file _ m d => (d, m.normalize)
  | Noder.tree _ d _ => (d, Mode.dir)

/-- Modelled from the spec: a noder path of §3, the ordered list of noders
from the tree root down to one entry. -/
abbrev NoderPath := List Noder

/-- The `/`-joined string path of a noder path. -/
def pathString (p : NoderPath) : String :=
  String.intercalate "/" (p.map Noder.name)

/-! ## Change/action model

Modelled from the spec: the merkletrie `Change` type and its `Action`
derivation are not part of this source slice (only the difftree test is),
so they are rendered from §3 and §4.4 of the spec. -/

/-- The three change kinds. -/
inductive Action where
  | insert
  | delete
  | modify
deriving DecidableEq, Repr

/-- Modelled from the spec: a Change of §3, referencing a from noder path
and a to noder path, either possibly absent. -/
structure Change where
  From : Option NoderPath
  To : Option NoderPath

/-- Modelled from the spec: `action()` of §4.4 — Insert when `from` is
absent, Delete when `to` is absent, Modify when both are present, and the
`MalformedChange` defect signal when neither side is present. -/
def Change.action (c : Change) : Except String Action :=
  match c.From, c.To with
  | none, none => Except.error "malformed change: nil from and to"
  | none, some _ => Except.ok Action.insert
  | some _, none => Except.ok Action.delete
  | some _, some _ => Except.ok Action.modify

/-- Modelled from the spec: `path()` of §4.4 — prefer the `to` side and
fall back to `from`. -/
def Change.path (c : Change) : String :=
  match c.To, c.From with
  | some p, _ => pathString p
  | none, some p => pathString p
  | none, none => ""

/-- The mirror of a change: from and to sides exchanged (what diffing the
two trees in the opposite order produces). -/
def Change.swap (c : Change) : Change :=
  Change.mk c.To c.From

/-! ## Merkle diff engine

Modelled from the spec: the merkletrie diff algorithm of §4.3 is not part
of this source slice (only its test file is), so it is rendered from the
six steps of §4.3. -/

mutual

/-- Modelled from the spec: step 2 of §4.3 — the transitively reachable
non-container entries of a noder, as root-to-entry noder paths, in child
order at every level; containers themselves are never listed. `pre` is the
path from the root down to (excluding) the noder. -/
def reachableFiles (pre : NoderPath) : Noder → List NoderPath
  | Noder.file n m d => [pre ++ [Noder.file n m d]]
  | Noder.tree n d cs => reachableList (pre ++ [Noder.tree n d cs]) cs

def reachableList (pre : NoderPath) : List Noder → List NoderPath
  | [] => []
  | c :: cs => reachableFiles pre c ++ reachableList pre cs

end

/-- Pure Insert changes, one per listed noder path. -/
def mkInserts (ps : List NoderPath) : List Change :=
  ps.map (fun p => Change.mk none (some p))

/-- Pure Delete changes, one per listed noder path. -/
def mkDeletes (ps : List NoderPath) : List Change :=
  ps.map (fun p => Change.mk (some p) none)

mutual

/-- Modelled from the spec: steps 3-6 of §4.3.  `diffNodes` compares a pair
of present noders: equal identity digests prune the whole subtree (step 3);
two containers merge their children in a lockstep walk by name (step 4);
a non-container pair yields one Modify change, and a container against a
non-container expands the container side while the leaf side becomes one
atomic delete or insert (step 5).  `diffChildren` is the sorted-merge walk
of step 4: a name present only on one side is recursively enumerated as
pure deletes or inserts, a name present on both recurses the whole
algorithm on the pair. -/
def diffNodes (preA preB : NoderPath) (a b : Noder) : List Change :=
  if a.identity = b.identity then []
  else
    match a, b with
    | Noder.tree an ad acs, Noder.tree bn bd bcs =>
        diffChildren (preA ++ [Noder.tree an ad acs]) (preB ++ [Noder.tree bn bd bcs]) acs bcs
    | Noder.file an am ad, Noder.file bn bm bd =>
        [Change.mk (some (preA ++ [Noder.file an am ad])) (some (preB ++ [Noder.file bn bm bd]))]
    | Noder.file an am ad, Noder.tree bn bd bcs =>
        Change.mk (some (preA ++ [Noder.file an am ad])) none
          :: mkInserts (reachableFiles preB (Noder.tree bn bd bcs))
    | Noder.tree an ad acs, Noder.file bn bm bd =>
        mkDeletes (reachableFiles preA (Noder.tree an ad acs))
          ++ [Change.mk none (some (preB ++ [Noder.file bn bm bd]))]

def diffChildren (preA preB : NoderPath) : List Noder → List Noder → List Change
  | [], [] => []
  | a :: as, [] =>
      mkDeletes (reachableFiles preA a) ++ diffChildren preA preB as []
  | [], b :: bs =>
      mkInserts (reachableFiles preB b) ++ diffChildren preA preB [] bs
  | a :: as, b :: bs =>
      if a.name < b.name then
        mkDeletes (reachableFiles preA a) ++ diffChildren preA preB as (b :: bs)
      else if b.name < a.name then
        mkInserts (reachableFiles preB b) ++ diffChildren preA preB (a :: as) bs
      else
        diffNodes preA preB a b ++ diffChildren preA preB as bs

end

/-- Modelled from the spec: steps 1-2 of §4.3 — both roots absent yields
nothing, one absent root enumerates the present root as pure inserts or
deletes, both present defers to the pairwise comparison. -/
def rawDiff : Option Noder → Option Noder → List Change
  | none, none => []
  | none, some b => mkInserts (reachableFiles [] b)
  | some a, none => mkDeletes (reachableFiles [] a)
  | some a, some b => diffNodes [] [] a b

/-- The action rank used to break path ties in the presentation order. -/
def Change.rank (c : Change) : Nat :=
  match c.From, c.To with
  | none, some _ => 0
  | some _, none => 1
  | _, _ => 2

/-- The presentation order of §4.3: by string path, ties broken by action
kind. -/
def changeLE (c d : Change) : Prop :=
  c.path < d.path ∨ (c.path = d.path ∧ c.rank ≤ d.rank)

instance : DecidableRel changeLE := fun c d => by
  unfold changeLE
  exact inferInstance

instance : IsTotal Change changeLE where
  total c d := by
    rcases lt_trichotomy c.path d.path with h | h | h
    · exact Or.inl (Or.inl h)
    · rcases Nat.le_total c.rank d.rank with hr | hr
      · exact Or.inl (Or.inr ⟨h, hr⟩)
      · exact Or.inr (Or.inr ⟨h.symm, hr⟩)
    · exact Or.inr (Or.inl h)

instance : IsTrans Change changeLE where
  trans c d e := by
    rintro (h₁ | ⟨h₁, r₁⟩) (h₂ | ⟨h₂, r₂⟩)
    · exact Or.inl (lt_trans h₁ h₂)
    · exact Or.inl (h₂ ▸ h₁)
    · exact Or.inl (h₁ ▸ h₂)
    · exact Or.inr ⟨h₁.trans h₂, r₁.trans r₂⟩

/-- Modelled from the spec: the presentation sort of §4.3 — the final
change sequence is sorted by path, ties broken by action kind. -/
def sortChanges (l : List Change) : List Change :=
  l.insertionSort changeLE

/-- Modelled from the spec: the sole entry point `diff` of §4.3/§6 —
either root may be absent; the raw engine output is sorted for
presentation. -/
def DiffTree (t1 t2 : Option Noder) : List Change :=
  sortChanges (rawDiff t1 t2)

/-- Modelled from the spec: the method form of the entry point (the `Diff`
method a tree object exposes) delegates to the standalone entry point. -/
def Tree.Diff (t1 t2 : Option Noder) : List Change :=
  DiffTree t1 t2

/-- The input configuration of the mode-aliasing law: two trees whose only
difference is one file, at the same path in both, whose mode flips between
the regular class and the deprecated alias with its content digest
unchanged.  Every enclosing container keeps its name and its other children
on both sides, while the containers' own digests may differ arbitrarily. -/
inductive FlipAt (fn : String) (d : Digest) : Noder → Noder → Prop where
  | here : FlipAt fn d (Noder.file fn Mode.regular d) (Noder.file fn Mode.deprecated d)
  | deeper (tn : String) (ad bd : Digest) (cs1 cs2 : List Noder) {x y : Noder}
      (hxy : FlipAt fn d x y) :
      FlipAt fn d (Noder.tree tn ad (cs1 ++ x :: cs2)) (Noder.tree tn bd (cs1 ++ y :: cs2))

end merkletrie

/-! ## Theorems: the digest registry (src/plumbing/hash/hash.go) -/

theorem lookup_setAlgo_self {α : Type} (m : Algos α) (h : CryptoHash) (f : α) :
    lookupAlgo (setAlgo m h f) h = some f := by
  unfold lookupAlgo setAlgo
  rw [List.find?_cons_of_pos]
  · rfl
  · simp

/-- Claim C7: `RegisterHash` fails with the invalid-argument error whenever
the constructor is nil, fails with `ErrUnsupportedHashFunction` whenever a
non-nil constructor is supplied for a hash other than SHA-1 or SHA-256, and
otherwise installs or overrides the constructor for that hash and returns
no error. -/
theorem registerHash_spec {α : Type} (algos : Algos α) (h : CryptoHash) :
    RegisterHash algos h none = Except.error HashErr.invalidArgument
  ∧ (∀ f : α, h ≠ cryptoSHA1 → h ≠ cryptoSHA256 →
      RegisterHash algos h (some f) = Except.error HashErr.unsupportedHashFunction)
  ∧ (∀ f : α, h = cryptoSHA1 ∨ h = cryptoSHA256 →
      RegisterHash algos h (some f) = Except.ok (setAlgo algos h f)
      ∧ lookupAlgo (setAlgo algos h f) h = some f) := by
  refine ⟨rfl, ?_, ?_⟩
  · intro f h1 h2
    simp [RegisterHash, h1, h2]
  · intro f hf
    rcases hf with rfl | rfl
    · exact ⟨by simp [RegisterHash], lookup_setAlgo_self ..⟩
    · exact ⟨by simp [RegisterHash, cryptoSHA1, cryptoSHA256], lookup_setAlgo_self ..⟩

theorem registerHash_spec_witness :
    RegisterHash ([] : Algos Nat) 7 none = Except.error HashErr.invalidArgument
  ∧ RegisterHash ([] : Algos Nat) 7 (some 42) = Except.error HashErr.unsupportedHashFunction
  ∧ RegisterHash ([] : Algos Nat) 3 (some 42) = Except.ok (setAlgo [] 3 42)
  ∧ lookupAlgo (setAlgo ([] : Algos Nat) 3 42) 3 = some 42 := by
  obtain ⟨w1, w2, -⟩ := registerHash_spec ([] : Algos Nat) 7
  obtain ⟨-, -, w3⟩ := registerHash_spec ([] : Algos Nat) 3
  exact ⟨w1, w2 42 (by decide) (by decide), (w3 42 (Or.inl rfl)).1, (w3 42 (Or.inl rfl)).2⟩

/-- Claim C8: `New` returns the fresh instance made by the registered
constructor whenever one is registered for the hash (in particular the
defaults installed by `reset`, and whatever a successful `RegisterHash`
installed), and hits the unregistered panic (modelled as `none`) exactly
when no constructor is registered for the hash. -/
theorem new_spec {α : Type} (a b : α) (h : CryptoHash) :
    New (reset a b) cryptoSHA1 = some a
  ∧ New (reset a b) cryptoSHA256 = some b
  ∧ (h ≠ cryptoSHA1 → h ≠ cryptoSHA256 → New (reset a b) h = none)
  ∧ (∀ (m m' : Algos α) (f : α),
      RegisterHash m h (some f) = Except.ok m' → New m' h = some f) := by
  refine ⟨rfl, rfl, ?_, ?_⟩
  · intro h1 h2
    have h1' : ¬ (cryptoSHA1 = h) := fun e => h1 e.symm
    have h2' : ¬ (cryptoSHA256 = h) := fun e => h2 e.symm
    simp [New, reset, setAlgo, lookupAlgo, List.find?_cons, h1', h2']
  · intro m m' f hreg
    simp only [RegisterHash] at hreg
    split at hreg
    · cases hreg
      exact lookup_setAlgo_self ..
    · split at hreg
      · cases hreg
        exact lookup_setAlgo_self ..
      · cases hreg

theorem new_spec_witness :
    New (reset 1 2) cryptoSHA1 = some 1
  ∧ New (reset (1 : Nat) 2) 7 = none
  ∧ New (setAlgo ([] : Algos Nat) 3 9) 3 = some 9 := by
  obtain ⟨w1, -, w3, -⟩ := new_spec 1 2 7
  obtain ⟨-, -, -, w4⟩ := new_spec (1 : Nat) 2 3
  exact ⟨w1, w3 (by decide) (by decide), w4 [] (setAlgo [] 3 9) 9 rfl⟩

/-- Claim C9: `FromObjectFormat` returns the digester for the matching hash
when the token is one of the recognized object formats ("sha1", "sha256"),
and fails with `ErrInvalidObjectFormat` for every other token. -/
theorem fromObjectFormat_spec {α : Type} (a b : α) (t : ObjectFormat) :
    FromObjectFormat (reset a b) formatSHA1 = some (Except.ok a)
  ∧ FromObjectFormat (reset a b) formatSHA256 = some (Except.ok b)
  ∧ (t ≠ formatSHA1 → t ≠ formatSHA256 →
      ∀ m : Algos α, FromObjectFormat m t = some (Except.error HashErr.invalidObjectFormat)) := by
  refine ⟨rfl, rfl, ?_⟩
  intro h1 h2 m
  simp [FromObjectFormat, h1, h2]

theorem fromObjectFormat_spec_witness :
    FromObjectFormat (reset 1 2) formatSHA1 = some (Except.ok 1)
  ∧ FromObjectFormat ([] : Algos Nat) "sha512" = some (Except.error HashErr.invalidObjectFormat) := by
  obtain ⟨w1, -, w3⟩ := fromObjectFormat_spec (1 : Nat) 2 "sha512"
  exact ⟨w1, w3 (by decide) (by decide) []⟩

/-! ## Theorems: the diff engine and the change model -/

namespace merkletrie

theorem diffNodes_self (preA preB : NoderPath) (a : Noder) :
    diffNodes preA preB a a = [] := by
  unfold diffNodes
  simp

theorem sortChanges_nil : sortChanges [] = [] := rfl

/-- Claim C2: diffing a tree against itself, both sides having the same
identity, yields an empty change sequence (also when both roots are
absent). -/
theorem diffTree_self_empty (t : Option Noder) : DiffTree t t = [] := by
  cases t with
  | none => rfl
  | some a => simp [DiffTree, rawDiff, diffNodes_self, sortChanges_nil]

/-- Claim C5: `action()` is Insert exactly when only the from side is
absent, Delete exactly when only the to side is absent, Modify exactly when
both sides are present, and the change with neither side present fails with
the malformed-change error instead of returning an action. -/
theorem change_action_spec (c : Change) :
    (c.action = Except.ok Action.insert ↔ c.From = none ∧ c.To ≠ none)
  ∧ (c.action = Except.ok Action.delete ↔ c.From ≠ none ∧ c.To = none)
  ∧ (c.action = Except.ok Action.modify ↔ c.From ≠ none ∧ c.To ≠ none)
  ∧ (Change.mk none none).action = Except.error "malformed change: nil from and to" := by
  obtain ⟨f, t⟩ := c
  cases f <;> cases t <;> simp [Change.action]

/-- Claim C6: the change sequence the diff entry point returns is sorted by
string path with ties broken by the action kind, and is a permutation of
the raw engine output (the sort only re-orders, never adds or drops a
change). -/
theorem diffTree_sorted (t1 t2 : Option Noder) :
    List.Sorted changeLE (DiffTree t1 t2) ∧ (DiffTree t1 t2).Perm (rawDiff t1 t2) :=
  ⟨List.sorted_insertionSort changeLE _, List.perm_insertionSort changeLE _⟩

/-- Claim C10: the standalone entry point and the method form of the diff
return equal change sequences (same changes, in the same order) on every
pair of possibly-absent trees. -/
theorem treeDiff_eq_diffTree (t1 t2 : Option Noder) :
    Tree.Diff t1 t2 = DiffTree t1 t2 := rfl

theorem map_swap_mkInserts (ps : List NoderPath) :
    (mkInserts ps).map Change.swap = mkDeletes ps := by
  simp [mkInserts, mkDeletes, Change.swap, List.map_map, Function.comp]

theorem map_swap_mkDeletes (ps : List NoderPath) :
    (mkDeletes ps).map Change.swap = mkInserts ps := by
  simp [mkInserts, mkDeletes, Change.swap, List.map_map, Function.comp]

theorem diffChildren_nil_nil (preA preB : NoderPath) : diffChildren preA preB [] [] = [] := by
  conv_lhs => rw [diffChildren.eq_def]

mutual

theorem diffNodes_symm (preA preB : NoderPath) (a b : Noder) :
    (diffNodes preB preA b a).Perm ((diffNodes preA preB a b).map Change.swap) := by
  by_cases hid : a.identity = b.identity
  · have e1 : diffNodes preB preA b a = [] := by
      rw [diffNodes.eq_def, if_pos hid.symm]
    have e2 : diffNodes preA preB a b = [] := by
      rw [diffNodes.eq_def, if_pos hid]
    rw [e1, e2]
    exact List.Perm.refl _
  · have hid' : ¬ b.identity = a.identity := fun e => hid e.symm
    cases a with
    | file an am ad =>
      cases b with
      | file bn bm bd =>
        have e1 : diffNodes preB preA (Noder.file bn bm bd) (Noder.file an am ad)
            = [Change.mk (some (preB ++ [Noder.file bn bm bd]))
                (some (preA ++ [Noder.file an am ad]))] := by
          conv_lhs => rw [diffNodes.eq_def]
          dsimp only
          rw [if_neg hid']
        have e2 : diffNodes preA preB (Noder.file an am ad) (Noder.file bn bm bd)
            = [Change.mk (some (preA ++ [Noder.file an am ad]))
                (some (preB ++ [Noder.file bn bm bd]))] := by
          conv_lhs => rw [diffNodes.eq_def]
          dsimp only
          rw [if_neg hid]
        rw [e1, e2]
        exact List.Perm.refl _
      | tree bn bd bcs =>
        have e1 : diffNodes preB preA (Noder.tree bn bd bcs) (Noder.file an am ad)
            = mkDeletes (reachableFiles preB (Noder.tree bn bd bcs))
              ++ [Change.mk none (some (preA ++ [Noder.file an am ad]))] := by
          conv_lhs => rw [diffNodes.eq_def]
          dsimp only
          rw [if_neg hid']
        have e2 : diffNodes preA preB (Noder.file an am ad) (Noder.tree bn bd bcs)
            = Change.mk (some (preA ++ [Noder.file an am ad])) none
              :: mkInserts (reachableFiles preB (Noder.tree bn bd bcs)) := by
          conv_lhs => rw [diffNodes.eq_def]
          dsimp only
          rw [if_neg hid]
        rw [e1, e2, List.map_cons, map_swap_mkInserts]
        exact List.perm_append_singleton _ _
    | tree an ad acs =>
      cases b with
      | file bn bm bd =>
        have e1 : diffNodes preB preA (Noder.file bn bm bd) (Noder.tree an ad acs)
            = Change.mk (some (preB ++ [Noder.file bn bm bd])) none
              :: mkInserts (reachableFiles preA (Noder.tree an ad acs)) := by
          conv_lhs => rw [diffNodes.eq_def]
          dsimp only
          rw [if_neg hid']
        have e2 : diffNodes preA preB (Noder.tree an ad acs) (Noder.file bn bm bd)
            = mkDeletes (reachableFiles preA (Noder.tree an ad acs))
              ++ [Change.mk none (some (preB ++ [Noder.file bn bm bd]))] := by
          conv_lhs => rw [diffNodes.eq_def]
          dsimp only
          rw [if_neg hid]
        rw [e1, e2, List.map_append, map_swap_mkDeletes, List.map_cons]
        exact (List.perm_append_singleton _ _).symm
      | tree bn bd bcs =>
        have e1 : diffNodes preB preA (Noder.tree bn bd bcs) (Noder.tree an ad acs)
            = diffChildren (preB ++ [Noder.tree bn bd bcs])
                (preA ++ [Noder.tree an ad acs]) bcs acs := by
          conv_lhs => rw [diffNodes.eq_def]
          dsimp only
          rw [if_neg hid']
        have e2 : diffNodes preA preB (Noder.tree an ad acs) (Noder.tree bn bd bcs)
            = diffChildren (preA ++ [Noder.tree an ad acs])
                (preB ++ [Noder.tree bn bd bcs]) acs bcs := by
          conv_lhs => rw [diffNodes.eq_def]
          dsimp only
          rw [if_neg hid]
        rw [e1, e2]
        exact diffChildren_symm (preA ++ [Noder.tree an ad acs])
          (preB ++ [Noder.tree bn bd bcs]) acs bcs
termination_by sizeOf a + sizeOf b
decreasing_by all_goals simp_wf <;> omega

theorem diffChildren_symm (preA preB : NoderPath) (as bs : List Noder) :
    (diffChildren preB preA bs as).Perm ((diffChildren preA preB as bs).map Change.swap) := by
  cases as with
  | nil =>
    cases bs with
    | nil =>
      rw [diffChildren_nil_nil, diffChildren_nil_nil]
      exact List.Perm.refl _
    | cons b bs =>
      have e1 : diffChildren preB preA (b :: bs) []
          = mkDeletes (reachableFiles preB b) ++ diffChildren preB preA bs [] := by
        conv_lhs => rw [diffChildren.eq_def]
      have e2 : diffChildren preA preB [] (b :: bs)
          = mkInserts (reachableFiles preB b) ++ diffChildren preA preB [] bs := by
        conv_lhs => rw [diffChildren.eq_def]
      rw [e1, e2, List.map_append, map_swap_mkInserts]
      exact List.Perm.append_left _ (diffChildren_symm preA preB [] bs)
  | cons a as =>
    cases bs with
    | nil =>
      have e1 : diffChildren preB preA [] (a :: as)
          = mkInserts (reachableFiles preA a) ++ diffChildren preB preA [] as := by
        conv_lhs => rw [diffChildren.eq_def]
      have e2 : diffChildren preA preB (a :: as) []
          = mkDeletes (reachableFiles preA a) ++ diffChildren preA preB as [] := by
        conv_lhs => rw [diffChildren.eq_def]
      rw [e1, e2, List.map_append, map_swap_mkDeletes]
      exact List.Perm.append_left _ (diffChildren_symm preA preB as [])
    | cons b bs =>
      rcases lt_trichotomy a.name b.name with hn | hn | hn
      · have hn1 : ¬ b.name < a.name := not_lt_of_gt hn
        have e1 : diffChildren preB preA (b :: bs) (a :: as)
            = mkInserts (reachableFiles preA a) ++ diffChildren preB preA (b :: bs) as := by
          conv_lhs => rw [diffChildren.eq_def]
          dsimp only
          rw [if_neg hn1, if_pos hn]
        have e2 : diffChildren preA preB (a :: as) (b :: bs)
            = mkDeletes (reachableFiles preA a) ++ diffChildren preA preB as (b :: bs) := by
          conv_lhs => rw [diffChildren.eq_def]
          dsimp only
          rw [if_pos hn]
        rw [e1, e2, List.map_append, map_swap_mkDeletes]
        exact List.Perm.append_left _ (diffChildren_symm preA preB as (b :: bs))
      · have hn1 : ¬ a.name < b.name := by rw [hn]; exact lt_irrefl _
        have hn2 : ¬ b.name < a.name := by rw [hn]; exact lt_irrefl _
        have e1 : diffChildren preB preA (b :: bs) (a :: as)
            = diffNodes preB preA b a ++ diffChildren preB preA bs as := by
          conv_lhs => rw [diffChildren.eq_def]
          dsimp only
          rw [if_neg hn2, if_neg hn1]
        have e2 : diffChildren preA preB (a :: as) (b :: bs)
            = diffNodes preA preB a b ++ diffChildren preA preB as bs := by
          conv_lhs => rw [diffChildren.eq_def]
          dsimp only
          rw [if_neg hn1, if_neg hn2]
        rw [e1, e2, List.map_append]
        exact List.Perm.append (diffNodes_symm preA preB a b) (diffChildren_symm preA preB as bs)
      · have hn1 : ¬ a.name < b.name := not_lt_of_gt hn
        have e1 : diffChildren preB preA (b :: bs) (a :: as)
            = mkDeletes (reachableFiles preB b) ++ diffChildren preB preA bs (a :: as) := by
          conv_lhs => rw [diffChildren.eq_def]
          dsimp only
          rw [if_pos hn]
        have e2 : diffChildren preA preB (a :: as) (b :: bs)
            = mkInserts (reachableFiles preB b) ++ diffChildren preA preB (a :: as) bs := by
          conv_lhs => rw [diffChildren.eq_def]
          dsimp only
          rw [if_neg hn1, if_pos hn]
        rw [e1, e2, List.map_append, map_swap_mkInserts]
        exact List.Perm.append_left _ (diffChildren_symm preA preB (a :: as) bs)
termination_by sizeOf as + sizeOf bs
decreasing_by all_goals simp_wf <;> omega

end

mutual

theorem reachableFiles_last (pre : NoderPath) (a : Noder) :
    ∀ p ∈ reachableFiles pre a, ∃ q fn fm fd, p = q ++ [Noder.file fn fm fd] := by
  cases a with
  | file n m d =>
    intro p hp
    have e : reachableFiles pre (Noder.file n m d) = [pre ++ [Noder.file n m d]] := by
      conv_lhs => rw [reachableFiles.eq_def]
    rw [e] at hp
    simp at hp
    exact ⟨pre, n, m, d, hp⟩
  | tree n d cs =>
    intro p hp
    have e : reachableFiles pre (Noder.tree n d cs)
        = reachableList (pre ++ [Noder.tree n d cs]) cs := by
      conv_lhs => rw [reachableFiles.eq_def]
    rw [e] at hp
    exact reachableList_last _ cs p hp
termination_by sizeOf a
decreasing_by all_goals simp_wf <;> omega

theorem reachableList_last (pre : NoderPath) (cs : List Noder) :
    ∀ p ∈ reachableList pre cs, ∃ q fn fm fd, p = q ++ [Noder.file fn fm fd] := by
  cases cs with
  | nil =>
    intro p hp
    have e : reachableList pre ([] : List Noder) = [] := by
      conv_lhs => rw [reachableList.eq_def]
    rw [e] at hp
    simp at hp
  | cons c rest =>
    intro p hp
    have e : reachableList pre (c :: rest) = reachableFiles pre c ++ reachableList pre rest := by
      conv_lhs => rw [reachableList.eq_def]
    rw [e] at hp
    rcases List.mem_append.mp hp with h | h
    · exact reachableFiles_last pre c p h
    · exact reachableList_last pre rest p h
termination_by sizeOf cs
decreasing_by all_goals simp_wf <;> omega

end

theorem rawDiff_symm (t1 t2 : Option Noder) :
    (rawDiff t2 t1).Perm ((rawDiff t1 t2).map Change.swap) := by
  cases t1 with
  | none =>
    cases t2 with
    | none => exact List.Perm.refl _
    | some b =>
      rw [show rawDiff (some b) none = mkDeletes (reachableFiles [] b) from rfl,
          show rawDiff none (some b) = mkInserts (reachableFiles [] b) from rfl,
          map_swap_mkInserts]
  | some a =>
    cases t2 with
    | none =>
      rw [show rawDiff none (some a) = mkInserts (reachableFiles [] a) from rfl,
          show rawDiff (some a) none = mkDeletes (reachableFiles [] a) from rfl,
          map_swap_mkDeletes]
    | some b => exact diffNodes_symm [] [] a b

/-- Claim C4: for every pair of possibly-absent trees, diffing in one order
and diffing in the other yield the same changes up to mirroring: the second
result is a permutation of the first with every change's from and to sides
exchanged, so each Insert of one run is a Delete of the other, each Delete
an Insert, and each Modify appears in both with its from and to noder paths
swapped. -/
theorem diffTree_symm (t1 t2 : Option Noder) :
    (DiffTree t2 t1).Perm ((DiffTree t1 t2).map Change.swap) := by
  have h1 : (DiffTree t2 t1).Perm (rawDiff t2 t1) := List.perm_insertionSort changeLE _
  have h2 : (DiffTree t1 t2).Perm (rawDiff t1 t2) := List.perm_insertionSort changeLE _
  exact h1.trans ((rawDiff_symm t1 t2).trans ((h2.map Change.swap).symm))

/-- Claim C3: diffing an absent tree against a present tree A yields
exactly one Insert per non-container entry transitively reachable in A (the
result is a permutation of the insert list over `reachableFiles`), every
returned change is an Insert (so there is no Delete and no Modify) whose
`to` path is one of those reachable entries and ends in a non-container
noder; symmetrically, diffing A against an absent tree yields exactly one
Delete per such entry and no Insert or Modify. -/
theorem diffTree_absent_spec (a : Noder) :
    (DiffTree none (some a)).Perm (mkInserts (reachableFiles [] a))
  ∧ (∀ c ∈ DiffTree none (some a), c.action = Except.ok Action.insert
      ∧ ∃ p, c.To = some p ∧ p ∈ reachableFiles [] a
        ∧ ∃ q fn fm fd, p = q ++ [Noder.file fn fm fd])
  ∧ (DiffTree (some a) none).Perm (mkDeletes (reachableFiles [] a))
  ∧ (∀ c ∈ DiffTree (some a) none, c.action = Except.ok Action.delete
      ∧ ∃ p, c.From = some p ∧ p ∈ reachableFiles [] a
        ∧ ∃ q fn fm fd, p = q ++ [Noder.file fn fm fd]) := by
  have hIns : (DiffTree none (some a)).Perm (mkInserts (reachableFiles [] a)) :=
    List.perm_insertionSort changeLE _
  have hDel : (DiffTree (some a) none).Perm (mkDeletes (reachableFiles [] a)) :=
    List.perm_insertionSort changeLE _
  refine ⟨hIns, ?_, hDel, ?_⟩
  · intro c hc
    have hc' : c ∈ mkInserts (reachableFiles [] a) := hIns.mem_iff.mp hc
    simp only [mkInserts, List.mem_map] at hc'
    rcases hc' with ⟨p, hp, rfl⟩
    exact ⟨rfl, p, rfl, hp, reachableFiles_last [] a p hp⟩
  · intro c hc
    have hc' : c ∈ mkDeletes (reachableFiles [] a) := hDel.mem_iff.mp hc
    simp only [mkDeletes, List.mem_map] at hc'
    rcases hc' with ⟨p, hp, rfl⟩
    exact ⟨rfl, p, rfl, hp, reachableFiles_last [] a p hp⟩

theorem diffTree_absent_spec_witness :
    (DiffTree none (some (Noder.file "a" Mode.regular 1))).Perm
      (mkInserts (reachableFiles [] (Noder.file "a" Mode.regular 1)))
  ∧ (Change.mk none (some [Noder.file "a" Mode.regular 1])).action
      = Except.ok Action.insert := by
  obtain ⟨h1, h2, -, -⟩ := diffTree_absent_spec (Noder.file "a" Mode.regular 1)
  have he : DiffTree none (some (Noder.file "a" Mode.regular 1))
      = [Change.mk none (some [Noder.file "a" Mode.regular 1])] := by
    show sortChanges (mkInserts (reachableFiles [] (Noder.file "a" Mode.regular 1))) = _
    rw [reachableFiles.eq_def]
    rfl
  have hm : Change.mk none (some [Noder.file "a" Mode.regular 1])
      ∈ DiffTree none (some (Noder.file "a" Mode.regular 1)) := by
    rw [he]
    exact List.mem_singleton.mpr rfl
  exact ⟨h1, (h2 _ hm).1⟩

theorem diffChildren_rel_empty (preA preB : NoderPath) {as bs : List Noder}
    (h : List.Forall₂
      (fun x y => x.name = y.name ∧ ∀ pa pb, diffNodes pa pb x y = []) as bs) :
    diffChildren preA preB as bs = [] := by
  induction h with
  | nil => exact diffChildren_nil_nil preA preB
  | @cons x y xs ys hxy hrest ih =>
    obtain ⟨hn, hd⟩ := hxy
    have h1 : ¬ x.name < y.name := by rw [hn]; exact lt_irrefl _
    have h2 : ¬ y.name < x.name := by rw [hn]; exact lt_irrefl _
    have e : diffChildren preA preB (x :: xs) (y :: ys)
        = diffNodes preA preB x y ++ diffChildren preA preB xs ys := by
      conv_lhs => rw [diffChildren.eq_def]
      dsimp only
      rw [if_neg h1, if_neg h2]
    rw [e, hd preA preB, ih, List.nil_append]

theorem FlipAt.name_eq {fn : String} {d : Digest} {a b : Noder}
    (h : FlipAt fn d a b) : a.name = b.name := by
  cases h <;> rfl

theorem diffNodes_flip {fn : String} {d : Digest} {a b : Noder}
    (h : FlipAt fn d a b) : ∀ preA preB, diffNodes preA preB a b = [] := by
  induction h with
  | here =>
    intro pa pb
    have hfid : (Noder.file fn Mode.regular d).identity
        = (Noder.file fn Mode.deprecated d).identity := rfl
    rw [diffNodes.eq_def, if_pos hfid]
  | @deeper tn ad bd cs1 cs2 x y hxy ih =>
    intro pa pb
    by_cases hid : (Noder.tree tn ad (cs1 ++ x :: cs2)).identity
        = (Noder.tree tn bd (cs1 ++ y :: cs2)).identity
    · rw [diffNodes.eq_def, if_pos hid]
    · rw [diffNodes.eq_def, if_neg hid]
      dsimp only
      have hrefl : ∀ l : List Noder, List.Forall₂
          (fun u v => u.name = v.name ∧ ∀ pa pb, diffNodes pa pb u v = []) l l :=
        fun l => List.forall₂_same.mpr
          (fun u _ => ⟨rfl, fun pa pb => diffNodes_self pa pb u⟩)
      exact diffChildren_rel_empty _ _
        (List.rel_append (hrefl cs1) (List.Forall₂.cons ⟨hxy.name_eq, ih⟩ (hrefl cs2)))

/-- Claim C1: when the only difference between two trees is one file, at
the same path in both, whose mode flips between the regular-file class and
the deprecated alias with content digest unchanged, the identity digests of
the two versions of that file are equal and the diff reports no change at
all, in either direction — the flipped file may be the root noder itself or
sit at any depth below the roots among otherwise identical siblings. -/
theorem deprecated_alias_no_change (fn : String) (d : Digest) {a b : Noder}
    (hf : FlipAt fn d a b) :
    (Noder.file fn Mode.deprecated d).identity = (Noder.file fn Mode.regular d).identity
  ∧ DiffTree (some a) (some b) = []
  ∧ DiffTree (some b) (some a) = [] := by
  have h1 : diffNodes [] [] a b = [] := diffNodes_flip hf [] []
  have h2 : diffNodes [] [] b a = [] := by
    have hs := diffNodes_symm [] [] a b
    rw [h1] at hs
    exact hs.eq_nil
  refine ⟨rfl, ?_, ?_⟩
  · show sortChanges (diffNodes [] [] a b) = []
    rw [h1]
    rfl
  · show sortChanges (diffNodes [] [] b a) = []
    rw [h2]
    rfl

theorem deprecated_alias_no_change_witness :
    (Noder.file "f" Mode.deprecated 7).identity = (Noder.file "f" Mode.regular 7).identity
  ∧ DiffTree (some (Noder.tree "" 1 [Noder.file "f" Mode.regular 7]))
      (some (Noder.tree "" 2 [Noder.file "f" Mode.deprecated 7])) = [] := by
  obtain ⟨w1, w2, -⟩ := deprecated_alias_no_change "f" 7
    (FlipAt.deeper "" 1 2 [] [] FlipAt.here)
  exact ⟨w1, w2⟩

end merkletrie
